import Mathlib

/-!
Shallow embedding of the W-LSB (Window-based Least Significant Bits)
encoder from `src/common/wlsb.c`, together with theorems settling the
specification claims about it.

Machine integers are modelled as `ℕ` (`uint16_t` sequence numbers,
`uint32_t` values) and `ℤ` (the `int32_t` shift parameter `p`).  The
window array is a `List c_window`; in every state produced by
`c_create_wlsb` and preserved by the operations its length equals
`window_width`.  The external interval function `f` (from
`interval.c`, out of scope per the spec) is a parameter
`f : ℕ → ℕ → ℤ → ℕ × ℕ` mapping `(v_ref, k, p)` to `(min, max)`.
`c_get_k_wlsb` returns `Option ℕ`: `some bits_nr` models
`return 1` with `*bits_nr` set, `none` models `return 0`.
-/

namespace Wlsb

/-- One window entry: `struct c_window` (`sn`, `value`, `is_used`). -/
structure c_window where
  sn : ℕ
  value : ℕ
  is_used : Bool
deriving DecidableEq, Repr

/-- The entry every slot holds after `bzero`/`calloc`: all fields zero. -/
def emptyEntry : c_window := ⟨0, 0, false⟩

/-- The W-LSB object: `struct c_wlsb`. -/
structure c_wlsb where
  oldest : ℕ
  next : ℕ
  window_width : ℕ
  window : List c_window
  bits : ℕ
  p : ℤ
deriving DecidableEq, Repr

/-- Array read `s->window[i]` (out-of-range reads yield the zero entry;
the C code never performs them in the states the claims quantify over). -/
def entryAt (win : List c_window) (i : ℕ) : c_window :=
  win.getD i emptyEntry

/-- `c_create_wlsb(bits, window_width, p)` on the success path:
zeroed window of `window_width` slots, `oldest = next = 0`. -/
def c_create_wlsb (bits window_width : ℕ) (p : ℤ) : c_wlsb :=
  { oldest := 0
    next := 0
    window_width := window_width
    window := List.replicate window_width emptyEntry
    bits := bits
    p := p }

/-- `c_add_wlsb`: if the slot at `next` is in use, advance `oldest`
circularly; overwrite the slot at `next`; advance `next` circularly. -/
def c_add_wlsb (wlsb : c_wlsb) (sn value : ℕ) : c_wlsb :=
  { wlsb with
    oldest :=
      if (entryAt wlsb.window wlsb.next).is_used then
        (wlsb.oldest + 1) % wlsb.window_width
      else wlsb.oldest
    window := wlsb.window.set wlsb.next ⟨sn, value, true⟩
    next := (wlsb.next + 1) % wlsb.window_width }

/-- The conditional update `if (value < min) min = value;` of the
min/max scan in `c_get_k_wlsb`. -/
def cmin (a x : ℕ) : ℕ := if x < a then x else a

/-- The conditional update `if (value > max) max = value;` of the
min/max scan in `c_get_k_wlsb`. -/
def cmax (a x : ℕ) : ℕ := if a < x then x else a

/-- The scan loop of `c_get_k_wlsb`: walk the window once, tracking
`(valid, min, max)` over the in-use entries. -/
def scanWindow : List c_window → Bool × ℕ × ℕ → Bool × ℕ × ℕ
  | [], acc => acc
  | e :: rest, (valid, mn, mx) =>
    if e.is_used then scanWindow rest (true, cmin mn e.value, cmax mx e.value)
    else scanWindow rest (valid, mn, mx)

/-- The loop body of `g`, fuelled: starting at candidate `k`, try at
most `fuel` further values of `k`, stopping at the first `k` whose
interval `f(v_ref, k, p)` contains `v`; if none does, return the
value of `k` after the last increment (the loop bound). -/
def g_from (f : ℕ → ℕ → ℤ → ℕ × ℕ) (v_ref v : ℕ) (p : ℤ) : ℕ → ℕ → ℕ
  | k, 0 => k
  | k, fuel + 1 =>
    if (f v_ref k p).1 ≤ v ∧ v ≤ (f v_ref k p).2 then k
    else g_from f v_ref v p (k + 1) fuel

/-- The `g` function of `wlsb.c`: minimal `k` with
`f(v_ref,k,p).min ≤ v ≤ f(v_ref,k,p).max`, saturating at `bits_nr`. -/
def g (f : ℕ → ℕ → ℤ → ℕ × ℕ) (v_ref v : ℕ) (p : ℤ) (bits_nr : ℕ) : ℕ :=
  g_from f v_ref v p 0 bits_nr

/-- `c_get_k_wlsb`: min/max scan over the window (`min` starting at
`0xffffffff`, `max` at `0`); when at least one entry was in use,
`k1 = g(min)`, `k2 = g(max)`, result `(k1 > k2) ? k1 : k2` with
success; else failure. -/
def c_get_k_wlsb (f : ℕ → ℕ → ℤ → ℕ × ℕ) (wlsb : c_wlsb) (value : ℕ) :
    Option ℕ :=
  let scan := scanWindow wlsb.window (false, 4294967295, 0)
  let k1 := g f scan.2.1 value wlsb.p wlsb.bits
  let k2 := g f scan.2.2 value wlsb.p wlsb.bits
  if scan.1 then some (if k2 < k1 then k1 else k2) else none

/-- One search loop of `c_ack_sn_wlsb`: starting at slot `i`, scan at
most `fuel` consecutive slots for the first in-use entry with the
given sequence number. -/
def findSn (win : List c_window) (sn : ℕ) : ℕ → ℕ → Option ℕ
  | _, 0 => none
  | i, fuel + 1 =>
    if (entryAt win i).is_used = true ∧ (entryAt win i).sn = sn then some i
    else findSn win sn (i + 1) fuel

/-- The full search of `c_ack_sn_wlsb`: first loop from `oldest` to
`window_width - 1`, then (only if not found) from `0` to `oldest - 1`. -/
def c_ack_find (s : c_wlsb) (sn : ℕ) : Option ℕ :=
  match findSn s.window sn s.oldest (s.window_width - s.oldest) with
  | some i => some i
  | none => findSn s.window sn 0 s.oldest

/-- `s->window[j].is_used = 0;` at one slot (contents kept). -/
def clearUsed (win : List c_window) (j : ℕ) : List c_window :=
  win.set j { entryAt win j with is_used := false }

/-- Clear `is_used` on `n` consecutive slots starting at `lo`
(a `for (j = lo; j < lo + n; j++) win[j].is_used = 0;` loop). -/
def markDead (win : List c_window) : ℕ → ℕ → List c_window
  | _, 0 => win
  | lo, n + 1 => markDead (clearUsed win lo) (lo + 1) n

/-- Length of the consecutive in-use run starting at slot `i`, looking
at most `fuel` slots (a `for` loop that `break`s at the first slot not
in use). -/
def runLen (win : List c_window) : ℕ → ℕ → ℕ
  | _, 0 => 0
  | i, fuel + 1 =>
    if (entryAt win i).is_used then runLen win (i + 1) fuel + 1 else 0

/-- The marking phase of `c_ack_remove`: clear `is_used` on the slots
from `oldest` up to (excluding) `index` — just the oldest slot when
`index == oldest`, wrapping through the end of the buffer when
`oldest > index`. -/
def ackWindow (s : c_wlsb) (index : ℕ) : List c_window :=
  if s.oldest = index then clearUsed s.window s.oldest
  else if s.oldest < index then markDead s.window s.oldest (index - s.oldest)
  else markDead (markDead s.window s.oldest (s.window_width - s.oldest)) 0 index

/-- The `oldest`-fixing phase of `c_ack_remove`: `0` when
`index >= window_width - 1`, else `index` (with the defensive clamp
to `0` of the `else` branch). -/
def ackOldest (s : c_wlsb) (index : ℕ) : ℕ :=
  if s.window_width - 1 ≤ index then 0
  else if s.window_width ≤ index then 0 else index

/-- `c_ack_remove(s, index)`: marking phase, `oldest` fix, `next` fix
by the two run-counting loops (which advance `next` by one modulo
`window_width` per in-use slot — written as a single modulus of the
total), then the final defensive clamp of `oldest`. -/
def c_ack_remove (s : c_wlsb) (index : ℕ) : c_wlsb :=
  { s with
    window := ackWindow s index
    oldest := if s.window_width ≤ ackOldest s index then 0 else ackOldest s index
    next :=
      (ackOldest s index
        + runLen (ackWindow s index) (ackOldest s index)
            (s.window_width - ackOldest s index)
        + runLen (ackWindow s index) 0 (ackOldest s index)) % s.window_width }

/-- `c_ack_sn_wlsb(s, sn)`: remove at the first matching slot, no-op
when no in-use entry carries `sn`. -/
def c_ack_sn_wlsb (s : c_wlsb) (sn : ℕ) : c_wlsb :=
  match c_ack_find s sn with
  | some i => c_ack_remove s i
  | none => s

/-- State-passing view of `c_get_k_wlsb`: the C function takes the
encoder through a `const` pointer and performs no store to it, so its
embedding returns the state it was given together with the result. -/
def c_get_k_step (f : ℕ → ℕ → ℤ → ℕ × ℕ) (s : c_wlsb) (value : ℕ) :
    c_wlsb × Option ℕ :=
  (s, c_get_k_wlsb f s value)

/-- One API call of the encoder. -/
inductive WlsbOp where
  | add (sn value : ℕ)
  | ack (sn : ℕ)
  | getk (value : ℕ)
deriving DecidableEq, Repr

/-- `WlsbOp.isAdd op` is `true` when `op` is an insertion. -/
def WlsbOp.isAdd : WlsbOp → Bool
  | .add _ _ => true
  | _ => false

/-- Apply one API call to an encoder state. -/
def applyOp (f : ℕ → ℕ → ℤ → ℕ × ℕ) (s : c_wlsb) : WlsbOp → c_wlsb
  | .add sn v => c_add_wlsb s sn v
  | .ack sn => c_ack_sn_wlsb s sn
  | .getk v => (c_get_k_step f s v).1

/-- Apply a sequence of API calls, oldest first. -/
def applyOps (f : ℕ → ℕ → ℤ → ℕ × ℕ) : List WlsbOp → c_wlsb → c_wlsb
  | [], s => s
  | op :: rest, s => applyOps f rest (applyOp f s op)

/-- Number of in-use entries of the window. -/
def inUseCount (s : c_wlsb) : ℕ :=
  s.window.countP (fun e => e.is_used)

/-- The `value` fields of the in-use entries, in slot order. -/
def usedValues (win : List c_window) : List ℕ :=
  (win.filter (fun e => e.is_used)).map (fun e => e.value)

/-- `v` lies in the interval `f(v_ref, k, p)` (the `g` loop's test). -/
def inInterval (f : ℕ → ℕ → ℤ → ℕ × ℕ) (v_ref k : ℕ) (p : ℤ) (v : ℕ) :
    Prop :=
  (f v_ref k p).1 ≤ v ∧ v ≤ (f v_ref k p).2

instance (f : ℕ → ℕ → ℤ → ℕ × ℕ) (v_ref k : ℕ) (p : ℤ) (v : ℕ) :
    Decidable (inInterval f v_ref k p v) := by
  unfold inInterval
  infer_instance

/-- The spec's description of the g-search result: either the least
`k` in `[0, bits)` whose interval contains `v`, or `bits` itself when
no such `k` exists. -/
def GSpec (f : ℕ → ℕ → ℤ → ℕ × ℕ) (v_ref v : ℕ) (p : ℤ) (bits k : ℕ) :
    Prop :=
  (k < bits ∧ inInterval f v_ref k p v ∧
    ∀ j, j < k → ¬ inInterval f v_ref j p v) ∨
  (k = bits ∧ ∀ j, j < bits → ¬ inInterval f v_ref j p v)

/-- Slot `j` lies strictly between `o` and `i` walking forward
circularly from `o` (excluding both `o` and `i`). -/
def strictlyBetween (width o i j : ℕ) : Prop :=
  if o < i then o < j ∧ j < i else (o < j ∧ j < width) ∨ j < i

/-- Modelled from the spec: the circular in-use run length starting at
slot `i % width`, looking at most `fuel` slots. -/
def circRun (win : List c_window) (width : ℕ) : ℕ → ℕ → ℕ
  | _, 0 => 0
  | i, fuel + 1 =>
    if (entryAt win (i % width)).is_used then
      circRun win width (i + 1) fuel + 1
    else 0

/-- Modelled from the spec (§4.2): the `next` value obtained by one
circular walk from `o` over consecutive in-use slots — the first
not-in-use slot reached, or `o` again when all `width` slots are in
use. -/
def circularNextSpec (win : List c_window) (width o : ℕ) : ℕ :=
  (o + circRun win width o width) % width

/-- Modelled from the spec (§3): the in-use slots form a contiguous
circular run starting at `o` — whenever the slot at circular offset
`j` from `o` is in use, so is every slot at a smaller offset. -/
def ContiguousFrom (win : List c_window) (width o : ℕ) : Prop :=
  ∀ j, j < width → (entryAt win ((o + j) % width)).is_used = true →
    ∀ i, i < j → (entryAt win ((o + i) % width)).is_used = true

instance (win : List c_window) (width o : ℕ) :
    Decidable (ContiguousFrom win width o) := by
  unfold ContiguousFrom
  infer_instance

/-- The structural invariant maintained by insertion: the in-use slots
are exactly the `n` slots at circular offsets `0, …, n-1` from
`oldest`, and `next` is the slot at offset `n`. -/
def WindowInv (C : ℕ) (s : c_wlsb) : Prop :=
  s.window_width = C ∧ s.window.length = C ∧ s.oldest < C ∧
  ∃ n, n ≤ C ∧ s.next = (s.oldest + n) % C ∧
    ∀ j, j < C → ((entryAt s.window ((s.oldest + j) % C)).is_used = true ↔ j < n)

/-- A concrete deterministic interval function used to instantiate
theorems with hypotheses: `[v_ref, v_ref + 2^k - 1]`. -/
def fTest : ℕ → ℕ → ℤ → ℕ × ℕ := fun r k _ => (r, r + 2 ^ k - 1)

/-- Capacity-3 encoder holding a single entry `(sn 5, value 10)`. -/
def wOne : c_wlsb := c_add_wlsb (c_create_wlsb 4 3 0) 5 10

/-- Capacity-3 encoder after inserting sequence numbers 1, 2, 3. -/
def wThree : c_wlsb :=
  applyOps fTest [.add 1 10, .add 2 11, .add 3 12] (c_create_wlsb 4 3 0)

/-- Capacity-4 encoder reached by inserts and acknowledgments whose
window is full with `oldest = 1`; slot 1 holds sequence number 2. -/
def wFive : c_wlsb :=
  applyOps fTest
    [.add 1 100, .add 2 101, .add 3 102, .add 4 103, .ack 2, .add 5 104]
    (c_create_wlsb 4 4 0)

/-- Capacity-3 encoder reached by inserting sequence numbers 1, 2, 3
and acknowledging 1 (a match at the oldest slot). -/
def wSeven : c_wlsb :=
  applyOps fTest [.add 1 10, .add 2 11, .add 3 12, .ack 1]
    (c_create_wlsb 4 3 0)

/-! ### Basic lemmas about window slots -/

theorem entryAt_of_length_le (win : List c_window) (i : ℕ)
    (h : win.length ≤ i) : entryAt win i = emptyEntry :=
  List.getD_eq_default win emptyEntry h

theorem entryAt_mem_or (win : List c_window) (i : ℕ) :
    entryAt win i ∈ win ∨ entryAt win i = emptyEntry := by
  by_cases h : i < win.length
  · left
    rw [entryAt, List.getD_eq_getElem win emptyEntry h]
    exact List.getElem_mem h
  · right
    exact entryAt_of_length_le win i (le_of_not_lt h)

theorem entryAt_set_self (win : List c_window) (i : ℕ) (e : c_window)
    (h : i < win.length) : entryAt (win.set i e) i = e := by
  rw [entryAt, List.getD_eq_getD_get?, List.get?_set_eq_of_lt e h]
  rfl

theorem entryAt_set_ne (win : List c_window) (i j : ℕ) (e : c_window)
    (h : i ≠ j) : entryAt (win.set i e) j = entryAt win j := by
  rw [entryAt, entryAt, List.getD_eq_getD_get?, List.getD_eq_getD_get?,
    List.get?_set_ne e win h]

theorem length_clearUsed (win : List c_window) (j : ℕ) :
    (clearUsed win j).length = win.length :=
  List.length_set win j _

theorem entryAt_clearUsed_self (win : List c_window) (j : ℕ) :
    entryAt (clearUsed win j) j = { entryAt win j with is_used := false } := by
  by_cases h : j < win.length
  · exact entryAt_set_self win j _ h
  · have h1 : win.length ≤ j := le_of_not_lt h
    have h2 : (clearUsed win j).length ≤ j := by
      rw [length_clearUsed]; exact h1
    rw [entryAt_of_length_le _ j h2, entryAt_of_length_le win j h1]
    rfl

theorem entryAt_clearUsed_ne (win : List c_window) (i j : ℕ) (h : i ≠ j) :
    entryAt (clearUsed win i) j = entryAt win j :=
  entryAt_set_ne win i j _ h

theorem length_markDead (win : List c_window) (lo n : ℕ) :
    (markDead win lo n).length = win.length := by
  induction n generalizing win lo with
  | zero => rfl
  | succ m ih =>
    rw [markDead, ih, length_clearUsed]

theorem entryAt_markDead_out (win : List c_window) (lo n j : ℕ)
    (h : j < lo ∨ lo + n ≤ j) :
    entryAt (markDead win lo n) j = entryAt win j := by
  induction n generalizing win lo with
  | zero => rfl
  | succ m ih =>
    rw [markDead, ih _ _ (by omega), entryAt_clearUsed_ne win lo j (by omega)]

theorem entryAt_markDead_in (win : List c_window) (lo n j : ℕ)
    (h1 : lo ≤ j) (h2 : j < lo + n) :
    entryAt (markDead win lo n) j = { entryAt win j with is_used := false } := by
  induction n generalizing win lo with
  | zero => omega
  | succ m ih =>
    rw [markDead]
    by_cases hj : j = lo
    · subst hj
      rw [entryAt_markDead_out _ _ _ _ (by omega), entryAt_clearUsed_self]
    · rw [ih _ _ (by omega) (by omega), entryAt_clearUsed_ne win lo j (by omega)]

/-! ### Lemmas about the acknowledgment search -/

theorem findSn_some (win : List c_window) (sn : ℕ) :
    ∀ fuel i j, findSn win sn i fuel = some j →
      i ≤ j ∧ j < i + fuel ∧
      (entryAt win j).is_used = true ∧ (entryAt win j).sn = sn := by
  intro fuel
  induction fuel with
  | zero => intro i j h; exact absurd h (by simp [findSn])
  | succ m ih =>
    intro i j h
    rw [findSn] at h
    by_cases hc : (entryAt win i).is_used = true ∧ (entryAt win i).sn = sn
    · rw [if_pos hc] at h
      cases h
      exact ⟨le_refl i, by omega, hc.1, hc.2⟩
    · rw [if_neg hc] at h
      have := ih (i + 1) j h
      exact ⟨by omega, by omega, this.2.2⟩

theorem findSn_none (win : List c_window) (sn : ℕ)
    (h : ∀ e ∈ win, e.is_used = true → e.sn ≠ sn) :
    ∀ fuel i, findSn win sn i fuel = none := by
  intro fuel
  induction fuel with
  | zero => intro i; rfl
  | succ m ih =>
    intro i
    rw [findSn]
    have hni : ¬ ((entryAt win i).is_used = true ∧ (entryAt win i).sn = sn) := by
      rcases entryAt_mem_or win i with hm | he
      · intro ⟨hu, hs⟩
        exact h _ hm hu hs
      · rw [he]
        intro ⟨hu, _⟩
        exact Bool.false_ne_true hu
    rw [if_neg hni]
    exact ih (i + 1)

theorem c_ack_find_some (s : c_wlsb) (sn idx : ℕ)
    (hfind : c_ack_find s sn = some idx) (hol : s.oldest ≤ s.window_width) :
    idx < s.window_width ∧
    (entryAt s.window idx).is_used = true ∧ (entryAt s.window idx).sn = sn := by
  rw [c_ack_find] at hfind
  cases h1 : findSn s.window sn s.oldest (s.window_width - s.oldest) with
  | some i =>
    rw [h1] at hfind
    cases hfind
    have := findSn_some s.window sn _ _ _ h1
    exact ⟨by omega, this.2.2⟩
  | none =>
    rw [h1] at hfind
    have := findSn_some s.window sn _ _ _ hfind
    exact ⟨by omega, this.2.2⟩

/-! ### Lemmas about the min/max scan -/

theorem scanWindow_eq (win : List c_window) :
    ∀ (valid : Bool) (mn mx : ℕ),
      scanWindow win (valid, mn, mx) =
        (valid || win.any (fun e => e.is_used),
         (usedValues win).foldl cmin mn,
         (usedValues win).foldl cmax mx) := by
  induction win with
  | nil => intro valid mn mx; simp [scanWindow, usedValues]
  | cons e rest ih =>
    intro valid mn mx
    by_cases h : e.is_used
    · rw [scanWindow, if_pos h, ih]
      simp [usedValues, h]
    · rw [scanWindow, if_neg h, ih]
      have hb : e.is_used = false := by
        cases hu : e.is_used
        · rfl
        · exact absurd hu h
      simp [usedValues, hb]

theorem cmin_le_left (a x : ℕ) : cmin a x ≤ a := by
  rw [cmin]; split <;> omega

theorem cmin_le_right (a x : ℕ) : cmin a x ≤ x := by
  rw [cmin]; split <;> omega

theorem cmax_ge_left (a x : ℕ) : a ≤ cmax a x := by
  rw [cmax]; split <;> omega

theorem cmax_ge_right (a x : ℕ) : x ≤ cmax a x := by
  rw [cmax]; split <;> omega

theorem foldl_cmin_le_init (l : List ℕ) : ∀ a, l.foldl cmin a ≤ a := by
  induction l with
  | nil => intro a; exact le_refl a
  | cons y t ih =>
    intro a
    calc (y :: t).foldl cmin a = t.foldl cmin (cmin a y) := rfl
    _ ≤ cmin a y := ih _
    _ ≤ a := cmin_le_left a y

theorem foldl_cmin_le_mem (l : List ℕ) :
    ∀ a x, x ∈ l → l.foldl cmin a ≤ x := by
  induction l with
  | nil => intro a x hx; exact absurd hx (List.not_mem_nil x)
  | cons y t ih =>
    intro a x hx
    rcases List.mem_cons.mp hx with rfl | hx
    · calc (x :: t).foldl cmin a = t.foldl cmin (cmin a x) := rfl
      _ ≤ cmin a x := foldl_cmin_le_init t _
      _ ≤ x := cmin_le_right a x
    · exact ih _ x hx

theorem foldl_cmin_mem_or (l : List ℕ) :
    ∀ a, l.foldl cmin a = a ∨ l.foldl cmin a ∈ l := by
  induction l with
  | nil => intro a; exact Or.inl rfl
  | cons y t ih =>
    intro a
    have hstep : (y :: t).foldl cmin a = t.foldl cmin (cmin a y) := rfl
    rcases ih (cmin a y) with h | h
    · rw [hstep, h, cmin]
      split
      · exact Or.inr (List.mem_cons_self y t)
      · exact Or.inl rfl
    · rw [hstep]
      exact Or.inr (List.mem_cons_of_mem y h)

theorem foldl_cmax_ge_init (l : List ℕ) : ∀ a, a ≤ l.foldl cmax a := by
  induction l with
  | nil => intro a; exact le_refl a
  | cons y t ih =>
    intro a
    calc a ≤ cmax a y := cmax_ge_left a y
    _ ≤ t.foldl cmax (cmax a y) := ih _

theorem foldl_cmax_ge_mem (l : List ℕ) :
    ∀ a x, x ∈ l → x ≤ l.foldl cmax a := by
  induction l with
  | nil => intro a x hx; exact absurd hx (List.not_mem_nil x)
  | cons y t ih =>
    intro a x hx
    rcases List.mem_cons.mp hx with rfl | hx
    · calc x ≤ cmax a x := cmax_ge_right a x
      _ ≤ t.foldl cmax (cmax a x) := foldl_cmax_ge_init t _
    · exact ih _ x hx

theorem foldl_cmax_mem_or (l : List ℕ) :
    ∀ a, l.foldl cmax a = a ∨ l.foldl cmax a ∈ l := by
  induction l with
  | nil => intro a; exact Or.inl rfl
  | cons y t ih =>
    intro a
    have hstep : (y :: t).foldl cmax a = t.foldl cmax (cmax a y) := rfl
    rcases ih (cmax a y) with h | h
    · rw [hstep, h, cmax]
      split
      · exact Or.inr (List.mem_cons_self y t)
      · exact Or.inl rfl
    · rw [hstep]
      exact Or.inr (List.mem_cons_of_mem y h)

theorem any_of_usedValues_ne_nil (win : List c_window)
    (h : usedValues win ≠ []) : win.any (fun e => e.is_used) = true := by
  cases hf : win.filter (fun e => e.is_used) with
  | nil => exact absurd (by rw [usedValues, hf]; rfl) h
  | cons e t =>
    have hm : e ∈ win.filter (fun e => e.is_used) := by
      rw [hf]; exact List.mem_cons_self e t
    exact List.any_eq_true.mpr
      ⟨e, List.mem_of_mem_filter hm, List.of_mem_filter hm⟩

/-! ### Lemmas about the g-search -/

theorem g_from_spec (f : ℕ → ℕ → ℤ → ℕ × ℕ) (r v : ℕ) (p : ℤ) :
    ∀ (fuel k : ℕ), (∀ j, j < k → ¬ inInterval f r j p v) →
      (g_from f r v p k fuel < k + fuel ∧
        inInterval f r (g_from f r v p k fuel) p v ∧
        ∀ j, j < g_from f r v p k fuel → ¬ inInterval f r j p v) ∨
      (g_from f r v p k fuel = k + fuel ∧
        ∀ j, j < k + fuel → ¬ inInterval f r j p v) := by
  intro fuel
  induction fuel with
  | zero =>
    intro k hk
    exact Or.inr ⟨rfl, hk⟩
  | succ m ih =>
    intro k hk
    rw [g_from]
    by_cases hc : (f r k p).1 ≤ v ∧ v ≤ (f r k p).2
    · rw [if_pos hc]
      exact Or.inl ⟨by omega, hc, hk⟩
    · rw [if_neg hc]
      have hk1 : ∀ j, j < k + 1 → ¬ inInterval f r j p v := by
        intro j hj
        by_cases hjk : j = k
        · subst hjk; exact hc
        · exact hk j (by omega)
      rcases ih (k + 1) hk1 with h | h
      · exact Or.inl ⟨by omega, h.2⟩
      · exact Or.inr ⟨by omega, by rw [show k + (m + 1) = k + 1 + m by omega]; exact h.2⟩

theorem g_spec (f : ℕ → ℕ → ℤ → ℕ × ℕ) (r v : ℕ) (p : ℤ) (bits : ℕ) :
    GSpec f r v p bits (g f r v p bits) := by
  have h := g_from_spec f r v p bits 0 (by intro j hj; omega)
  rw [GSpec, g]
  rcases h with h | h
  · exact Or.inl ⟨by omega, h.2⟩
  · exact Or.inr ⟨by omega, by simpa using h.2⟩

theorem g_saturates (f : ℕ → ℕ → ℤ → ℕ × ℕ) (r v : ℕ) (p : ℤ) (bits : ℕ)
    (h : ∀ j, j < bits → ¬ inInterval f r j p v) :
    g f r v p bits = bits := by
  rcases g_spec f r v p bits with hs | hs
  · exact absurd hs.2.1 (h _ hs.1)
  · exact hs.1

theorem scan_result (win : List c_window) (hne : usedValues win ≠ [])
    (hbound : ∀ x ∈ usedValues win, x ≤ 4294967295) :
    ∃ mn mx, scanWindow win (false, 4294967295, 0) = (true, mn, mx) ∧
      mn ∈ usedValues win ∧ mx ∈ usedValues win ∧
      (∀ x ∈ usedValues win, mn ≤ x) ∧ (∀ x ∈ usedValues win, x ≤ mx) := by
  obtain ⟨x0, hx0⟩ := List.exists_mem_of_ne_nil _ hne
  refine ⟨(usedValues win).foldl cmin 4294967295, (usedValues win).foldl cmax 0,
    ?_, ?_, ?_, ?_, ?_⟩
  · rw [scanWindow_eq, any_of_usedValues_ne_nil win hne, Bool.or_true]
  · rcases foldl_cmin_mem_or (usedValues win) 4294967295 with h | h
    · have h1 := foldl_cmin_le_mem (usedValues win) 4294967295 x0 hx0
      have h2 := hbound x0 hx0
      have : (usedValues win).foldl cmin 4294967295 = x0 := by omega
      rw [this]; exact hx0
    · exact h
  · rcases foldl_cmax_mem_or (usedValues win) 0 with h | h
    · have h1 := foldl_cmax_ge_mem (usedValues win) 0 x0 hx0
      have : (usedValues win).foldl cmax 0 = x0 := by omega
      rw [this]; exact hx0
    · exact h
  · exact foldl_cmin_le_mem (usedValues win) 4294967295
  · exact foldl_cmax_ge_mem (usedValues win) 0

theorem ternary_eq_max (k1 k2 : ℕ) : (if k2 < k1 then k1 else k2) = Nat.max k1 k2 := by
  simp only [Nat.max_def]
  split <;> split <;> omega

/-! ### Claim theorems: minimal-bit-width search -/

/-- Claim C1: on a window with at least one in-use entry (all values
being 32-bit), `c_get_k_wlsb` computes `min_ref`/`max_ref` as the
minimum and maximum over the in-use entries' value fields, runs the
g-search (least `k` in `[0, max_bits)` whose interval contains the
value, saturating at `max_bits`) on each, and succeeds with
`bits_nr = max` of the two resulting `k` values. -/
theorem c_get_k_wlsb_minmax_gsearch (f : ℕ → ℕ → ℤ → ℕ × ℕ) (w : c_wlsb)
    (v : ℕ) (hne : usedValues w.window ≠ [])
    (hbound : ∀ x ∈ usedValues w.window, x ≤ 4294967295) :
    ∃ mn mx, mn ∈ usedValues w.window ∧ mx ∈ usedValues w.window ∧
      (∀ x ∈ usedValues w.window, mn ≤ x) ∧
      (∀ x ∈ usedValues w.window, x ≤ mx) ∧
      GSpec f mn v w.p w.bits (g f mn v w.p w.bits) ∧
      GSpec f mx v w.p w.bits (g f mx v w.p w.bits) ∧
      c_get_k_wlsb f w v =
        some (Nat.max (g f mn v w.p w.bits) (g f mx v w.p w.bits)) := by
  obtain ⟨mn, mx, hscan, hmn, hmx, hmnle, hmxge⟩ :=
    scan_result w.window hne hbound
  refine ⟨mn, mx, hmn, hmx, hmnle, hmxge, g_spec f mn v w.p w.bits,
    g_spec f mx v w.p w.bits, ?_⟩
  rw [c_get_k_wlsb]
  simp only [hscan, if_true]
  rw [ternary_eq_max]

/-- Claim C2: when no `k < max_bits` puts the value inside the
interval of either extreme reference, `c_get_k_wlsb` still succeeds
and returns `bits_nr = max_bits`. -/
theorem c_get_k_wlsb_saturates (f : ℕ → ℕ → ℤ → ℕ × ℕ) (w : c_wlsb)
    (v mn mx : ℕ)
    (hbound : ∀ x ∈ usedValues w.window, x ≤ 4294967295)
    (hmn_mem : mn ∈ usedValues w.window)
    (hmn_le : ∀ x ∈ usedValues w.window, mn ≤ x)
    (hmx_mem : mx ∈ usedValues w.window)
    (hmx_ge : ∀ x ∈ usedValues w.window, x ≤ mx)
    (hmn_fail : ∀ j, j < w.bits → ¬ inInterval f mn j w.p v)
    (hmx_fail : ∀ j, j < w.bits → ¬ inInterval f mx j w.p v) :
    c_get_k_wlsb f w v = some w.bits := by
  have hne : usedValues w.window ≠ [] := by
    intro h
    rw [h] at hmn_mem
    exact absurd hmn_mem (List.not_mem_nil mn)
  obtain ⟨mn0, mx0, hscan, hmn0, hmx0, hmn0le, hmx0ge⟩ :=
    scan_result w.window hne hbound
  have hmneq : mn0 = mn :=
    le_antisymm (hmn0le mn hmn_mem) (hmn_le mn0 hmn0)
  have hmxeq : mx0 = mx :=
    le_antisymm (hmx_ge mx0 hmx0) (hmx0ge mx hmx_mem)
  rw [c_get_k_wlsb]
  simp only [hscan, if_true]
  rw [hmneq, hmxeq, g_saturates f mn v w.p w.bits hmn_fail,
    g_saturates f mx v w.p w.bits hmx_fail]
  simp

/-- Claim C8: on a window with no in-use entry, `c_get_k_wlsb` fails
(`success = false`, i.e. `none`: no bit count is produced). -/
theorem c_get_k_wlsb_empty (f : ℕ → ℕ → ℤ → ℕ × ℕ) (w : c_wlsb) (v : ℕ)
    (hempty : ∀ e ∈ w.window, e.is_used = false) :
    c_get_k_wlsb f w v = none := by
  have hany : w.window.any (fun e => e.is_used) = false := by
    cases ha : w.window.any (fun e => e.is_used)
    · rfl
    · obtain ⟨e, hm, hu⟩ := List.any_eq_true.mp ha
      rw [hempty e hm] at hu
      exact absurd hu (by simp)
  rw [c_get_k_wlsb]
  simp only [scanWindow_eq, hany, Bool.or_false]
  rfl

/-- Claim C10: `c_get_k_wlsb` is a pure observation: in the
state-passing view it returns the encoder unchanged, and a second
call on the state it returned, with the same value and the same
deterministic interval function, yields the identical
(state, result) pair. -/
theorem c_get_k_step_pure (f : ℕ → ℕ → ℤ → ℕ × ℕ) (w : c_wlsb) (v : ℕ) :
    (c_get_k_step f w v).1 = w ∧
    c_get_k_step f (c_get_k_step f w v).1 v = c_get_k_step f w v :=
  ⟨rfl, rfl⟩

/-! ### Claim theorems: acknowledgment -/

/-- Claim C9: acknowledging a sequence number carried by no in-use
entry leaves the encoder completely unchanged. -/
theorem c_ack_sn_wlsb_unmatched_noop (w : c_wlsb) (sn : ℕ)
    (hnm : ∀ e ∈ w.window, e.is_used = true → e.sn ≠ sn) :
    c_ack_sn_wlsb w sn = w := by
  rw [c_ack_sn_wlsb, c_ack_find,
    findSn_none w.window sn hnm (w.window_width - w.oldest) w.oldest,
    findSn_none w.window sn hnm w.oldest 0]

/-- Claim C4: when the acknowledgment scan matches exactly at the
`oldest` slot, that matched entry itself is marked not-in-use. -/
theorem c_ack_sn_wlsb_matched_at_oldest (w : c_wlsb) (sn : ℕ)
    (hfind : c_ack_find w sn = some w.oldest) :
    (entryAt (c_ack_sn_wlsb w sn).window w.oldest).is_used = false := by
  rw [c_ack_sn_wlsb, hfind]
  have hwin : (c_ack_remove w w.oldest).window = clearUsed w.window w.oldest := by
    show ackWindow w w.oldest = clearUsed w.window w.oldest
    rw [ackWindow, if_pos rfl]
  rw [hwin, entryAt_clearUsed_self]

/-- Claim C3: when the acknowledgment scan matches at a slot `idx`
different from `oldest`, every slot strictly between `oldest` and
`idx` (walking forward circularly, excluding `idx`) is marked
not-in-use, the matched entry keeps its contents and stays in-use,
and the new `oldest` is `0` when `idx = capacity - 1` and `idx`
otherwise. -/
theorem c_ack_sn_wlsb_matched_general (w : c_wlsb) (sn idx : ℕ)
    (hfind : c_ack_find w sn = some idx) (hne : idx ≠ w.oldest)
    (hol : w.oldest < w.window_width) :
    (∀ j, j < w.window_width → strictlyBetween w.window_width w.oldest idx j →
      (entryAt (c_ack_sn_wlsb w sn).window j).is_used = false) ∧
    entryAt (c_ack_sn_wlsb w sn).window idx = entryAt w.window idx ∧
    (entryAt (c_ack_sn_wlsb w sn).window idx).is_used = true ∧
    (c_ack_sn_wlsb w sn).oldest =
      (if idx = w.window_width - 1 then 0 else idx) := by
  obtain ⟨hidx, hused, _⟩ := c_ack_find_some w sn idx hfind (le_of_lt hol)
  have hres : c_ack_sn_wlsb w sn = c_ack_remove w idx := by
    rw [c_ack_sn_wlsb, hfind]
  have hneo : w.oldest ≠ idx := fun h => hne h.symm
  have hwin : (c_ack_remove w idx).window = ackWindow w idx := rfl
  refine ⟨?_, ?_, ?_, ?_⟩
  · intro j hj hsb
    rw [hres, hwin, ackWindow, if_neg hneo]
    rcases lt_or_gt_of_ne hneo with hlt | hgt
    · rw [if_pos hlt]
      rw [strictlyBetween, if_pos hlt] at hsb
      rw [entryAt_markDead_in w.window w.oldest (idx - w.oldest) j
        (by omega) (by omega)]
    · rw [if_neg (by omega)]
      rw [strictlyBetween, if_neg (by omega)] at hsb
      rcases hsb with ⟨hoj, hjw⟩ | hji
      · rw [entryAt_markDead_out _ 0 idx j (by omega),
          entryAt_markDead_in w.window w.oldest (w.window_width - w.oldest) j
            (by omega) (by omega)]
      · rw [entryAt_markDead_in _ 0 idx j (by omega) (by omega)]
  · rw [hres, hwin, ackWindow, if_neg hneo]
    rcases lt_or_gt_of_ne hneo with hlt | hgt
    · rw [if_pos hlt, entryAt_markDead_out _ _ _ _ (by omega)]
    · rw [if_neg (by omega), entryAt_markDead_out _ 0 idx idx (by omega),
        entryAt_markDead_out _ _ _ _ (by omega)]
  · rw [hres, hwin, ackWindow, if_neg hneo]
    rcases lt_or_gt_of_ne hneo with hlt | hgt
    · rw [if_pos hlt, entryAt_markDead_out _ _ _ _ (by omega)]
      exact hused
    · rw [if_neg (by omega), entryAt_markDead_out _ 0 idx idx (by omega),
        entryAt_markDead_out _ _ _ _ (by omega)]
      exact hused
  · rw [hres]
    have hob : (c_ack_remove w idx).oldest =
        if w.window_width ≤ ackOldest w idx then 0 else ackOldest w idx := rfl
    rw [hob, ackOldest]
    split_ifs <;> omega

/-- Claim C5 (counterexample): a reachable encoder state and a
matching acknowledgment after which `next` differs from the value
prescribed by the spec's single circular walk from the new `oldest`
(the code's second counting loop still runs after the first loop
stopped at a not-in-use slot). -/
theorem c_ack_next_not_circular_walk :
    c_ack_find wFive 2 = some wFive.oldest ∧
    (c_ack_sn_wlsb wFive 2).next ≠
      circularNextSpec (c_ack_sn_wlsb wFive 2).window
        (c_ack_sn_wlsb wFive 2).window_width
        (c_ack_sn_wlsb wFive 2).oldest := by
  constructor
  · decide
  · decide

/-- Claim C5 (amended): after an acknowledgment that finds a match,
`next` equals the new `oldest` advanced (modulo capacity) by the
length of the consecutive in-use run from the new `oldest` towards
the end of the buffer plus the length of the consecutive in-use run
from slot 0 up to (excluding) the new `oldest`, both runs stopping at
the first not-in-use slot and counted on the post-marking window. -/
theorem c_ack_sn_wlsb_next_two_runs (w : c_wlsb) (sn idx : ℕ)
    (hfind : c_ack_find w sn = some idx) (hol : w.oldest < w.window_width) :
    (c_ack_sn_wlsb w sn).next =
      ((c_ack_sn_wlsb w sn).oldest
        + runLen (c_ack_sn_wlsb w sn).window (c_ack_sn_wlsb w sn).oldest
            (w.window_width - (c_ack_sn_wlsb w sn).oldest)
        + runLen (c_ack_sn_wlsb w sn).window 0 (c_ack_sn_wlsb w sn).oldest)
        % w.window_width := by
  obtain ⟨hidx, _, _⟩ := c_ack_find_some w sn idx hfind (le_of_lt hol)
  have hres : c_ack_sn_wlsb w sn = c_ack_remove w idx := by
    rw [c_ack_sn_wlsb, hfind]
  have hoeq : (c_ack_remove w idx).oldest = ackOldest w idx := by
    have hob : (c_ack_remove w idx).oldest =
        if w.window_width ≤ ackOldest w idx then 0 else ackOldest w idx := rfl
    rw [hob, ackOldest]
    split_ifs <;> omega
  rw [hres, hoeq]
  rfl

/-! ### Claim theorems: capacity invariant -/

theorem c_add_window (s : c_wlsb) (sn v : ℕ) :
    (c_add_wlsb s sn v).window = s.window.set s.next ⟨sn, v, true⟩ := rfl

theorem c_add_next (s : c_wlsb) (sn v : ℕ) :
    (c_add_wlsb s sn v).next = (s.next + 1) % s.window_width := rfl

theorem c_add_oldest (s : c_wlsb) (sn v : ℕ) :
    (c_add_wlsb s sn v).oldest =
      if (entryAt s.window s.next).is_used then (s.oldest + 1) % s.window_width
      else s.oldest := rfl

theorem window_length_c_add (s : c_wlsb) (sn v : ℕ) :
    (c_add_wlsb s sn v).window.length = s.window.length := by
  rw [c_add_window, List.length_set]

theorem window_length_c_ack_remove (s : c_wlsb) (idx : ℕ) :
    (c_ack_remove s idx).window.length = s.window.length := by
  show (ackWindow s idx).length = s.window.length
  rw [ackWindow]
  split_ifs <;> simp [length_clearUsed, length_markDead]

theorem window_length_applyOp (f : ℕ → ℕ → ℤ → ℕ × ℕ) (s : c_wlsb)
    (op : WlsbOp) : (applyOp f s op).window.length = s.window.length := by
  cases op with
  | add sn v => exact window_length_c_add s sn v
  | ack sn =>
    show (c_ack_sn_wlsb s sn).window.length = s.window.length
    rw [c_ack_sn_wlsb]
    cases h : c_ack_find s sn with
    | some i => exact window_length_c_ack_remove s i
    | none => rfl
  | getk v => rfl

theorem window_length_applyOps (f : ℕ → ℕ → ℤ → ℕ × ℕ) (ops : List WlsbOp) :
    ∀ s, (applyOps f ops s).window.length = s.window.length := by
  induction ops with
  | nil => intro s; rfl
  | cons op rest ih =>
    intro s
    rw [applyOps, ih, window_length_applyOp]

/-- Claim C6: starting from a freshly created encoder of capacity
`width`, no sequence of API calls (inserts interleaved with
acknowledgments and searches) ever makes the number of in-use window
entries exceed `width`. -/
theorem inUseCount_le_capacity (f : ℕ → ℕ → ℤ → ℕ × ℕ) (ops : List WlsbOp)
    (bits width : ℕ) (p : ℤ) :
    inUseCount (applyOps f ops (c_create_wlsb bits width p)) ≤ width := by
  rw [inUseCount]
  calc (applyOps f ops (c_create_wlsb bits width p)).window.countP
        (fun e => e.is_used) ≤
      (applyOps f ops (c_create_wlsb bits width p)).window.length :=
        List.countP_le_length _
  _ = width := by
      rw [window_length_applyOps]
      exact List.length_replicate width emptyEntry

/-! ### Claim theorems: contiguity -/

/-- Claim C7 (counterexample): a state reachable by inserts and one
acknowledgment (matching at the oldest slot) in which the in-use
entries do not form a contiguous circular run starting at `oldest`:
the slot at `oldest` is dead while later slots are still in use. -/
theorem contiguity_violated_reachable :
    ¬ ContiguousFrom wSeven.window wSeven.window_width wSeven.oldest := by
  decide

theorem entryAt_replicate (n i : ℕ) :
    entryAt (List.replicate n emptyEntry) i = emptyEntry := by
  by_cases h : i < n
  · rw [entryAt,
      List.getD_eq_getElem _ _ (by rw [List.length_replicate]; exact h)]
    exact List.getElem_replicate emptyEntry _
  · exact entryAt_of_length_le _ _ (by rw [List.length_replicate]; omega)

theorem windowInv_create (bits width : ℕ) (p : ℤ) (hw : 0 < width) :
    WindowInv width (c_create_wlsb bits width p) := by
  refine ⟨rfl, List.length_replicate width emptyEntry, hw, 0, by omega, ?_, ?_⟩
  · show 0 = (0 + 0) % width
    simp
  · intro j hj
    show (entryAt (List.replicate width emptyEntry) ((0 + j) % width)).is_used
        = true ↔ j < 0
    rw [entryAt_replicate]
    simp [emptyEntry]

theorem mod_add_left_cancel (o j n C : ℕ) (hj : j < C) (hn : n < C)
    (h : (o + j) % C = (o + n) % C) : j = n := by
  have h1 : j ≡ n [MOD C] := Nat.ModEq.add_left_cancel' o h
  have h2 : j % C = n % C := h1
  rw [Nat.mod_eq_of_lt hj, Nat.mod_eq_of_lt hn] at h2
  exact h2

theorem windowInv_add (C : ℕ) (s : c_wlsb) (sn v : ℕ) (h : WindowInv C s) :
    WindowInv C (c_add_wlsb s sn v) := by
  obtain ⟨hww, hlen, hol, n, hn, hnext, hentry⟩ := h
  have hC : 0 < C := by omega
  by_cases hfull : n < C
  · have hfree : (entryAt s.window s.next).is_used = false := by
      have hiff := hentry n hfull
      rw [← hnext] at hiff
      cases hu : (entryAt s.window s.next).is_used
      · rfl
      · exact absurd (hiff.mp hu) (by omega)
    have holdest : (c_add_wlsb s sn v).oldest = s.oldest := by
      rw [c_add_oldest, hfree]
      rfl
    refine ⟨hww, ?_, ?_, n + 1, by omega, ?_, ?_⟩
    · rw [window_length_c_add]; exact hlen
    · rw [holdest]; exact hol
    · rw [c_add_next, holdest, hww, hnext, Nat.mod_add_mod]
      rw [Nat.add_assoc]
    · intro j hj
      rw [holdest, c_add_window]
      by_cases hjn : j = n
      · subst hjn
        rw [← hnext,
          entryAt_set_self s.window s.next _
            (by rw [hlen, hnext]; exact Nat.mod_lt _ hC)]
        simp
      · have hnej : s.next ≠ (s.oldest + j) % C := by
          rw [hnext]
          intro hc
          exact hjn (mod_add_left_cancel s.oldest n j C hfull hj hc).symm
        rw [entryAt_set_ne s.window s.next _ _ hnej, hentry j hj]
        omega
  · have hnC : n = C := by omega
    have hnexto : s.next = s.oldest := by
      rw [hnext, hnC, Nat.add_mod_right, Nat.mod_eq_of_lt hol]
    have hused : (entryAt s.window s.next).is_used = true := by
      have hiff := hentry 0 hC
      rw [Nat.add_zero, Nat.mod_eq_of_lt hol] at hiff
      rw [hnexto]
      exact hiff.mpr (by omega)
    have holdest : (c_add_wlsb s sn v).oldest = (s.oldest + 1) % C := by
      rw [c_add_oldest, hused, hww]
      rfl
    refine ⟨hww, ?_, ?_, C, le_refl C, ?_, ?_⟩
    · rw [window_length_c_add]; exact hlen
    · rw [holdest]; exact Nat.mod_lt _ hC
    · rw [c_add_next, holdest, hww, hnexto, Nat.add_mod_right,
        Nat.mod_eq_of_lt (Nat.mod_lt _ hC)]
    · intro j hj
      rw [holdest, c_add_window, Nat.mod_add_mod]
      constructor
      · intro _; exact hj
      · intro _
        by_cases hpo : (s.oldest + 1 + j) % C = s.next
        · rw [hpo, entryAt_set_self s.window s.next _ (by rw [hlen, hnexto]; exact hol)]
        · rw [entryAt_set_ne s.window s.next _ _ (fun hc => hpo hc.symm)]
          by_cases hjC : j + 1 < C
          · have hix : (s.oldest + 1 + j) % C = (s.oldest + (j + 1)) % C := by
              rw [Nat.add_assoc, Nat.add_comm 1 j]
            rw [hix]
            exact (hentry (j + 1) hjC).mpr (by omega)
          · have hj1 : j + 1 = C := by omega
            have : (s.oldest + 1 + j) % C = s.next := by
              rw [hnexto, Nat.add_assoc, Nat.add_comm 1 j, hj1,
                Nat.add_mod_right, Nat.mod_eq_of_lt hol]
            exact absurd this hpo

theorem windowInv_applyOps (f : ℕ → ℕ → ℤ → ℕ × ℕ) (C : ℕ)
    (ops : List WlsbOp) (hadds : ∀ op ∈ ops, op.isAdd = true) :
    ∀ s, WindowInv C s → WindowInv C (applyOps f ops s) := by
  induction ops with
  | nil => intro s h; exact h
  | cons op rest ih =>
    intro s h
    cases op with
    | add sn v =>
      exact ih (fun o ho => hadds o (List.mem_cons_of_mem _ ho)) _
        (windowInv_add C s sn v h)
    | ack sn =>
      have := hadds (WlsbOp.ack sn) (List.mem_cons_self _ _)
      exact absurd this (by simp [WlsbOp.isAdd])
    | getk v =>
      have := hadds (WlsbOp.getk v) (List.mem_cons_self _ _)
      exact absurd this (by simp [WlsbOp.isAdd])

theorem contiguousFrom_of_windowInv (C : ℕ) (s : c_wlsb)
    (h : WindowInv C s) : ContiguousFrom s.window C s.oldest := by
  obtain ⟨_, _, _, n, _, _, hentry⟩ := h
  intro j hj hused i hij
  have hjn := (hentry j hj).mp hused
  exact (hentry i (by omega)).mpr (by omega)

/-- Claim C7 (amended): in every state reachable from a freshly
created encoder of positive capacity by insertions alone, the in-use
entries form a contiguous circular run starting at `oldest`
(acknowledgment can break this, see the counterexample). -/
theorem contiguous_of_inserts (f : ℕ → ℕ → ℤ → ℕ × ℕ) (ops : List WlsbOp)
    (bits width : ℕ) (p : ℤ) (hw : 0 < width)
    (hadds : ∀ op ∈ ops, op.isAdd = true) :
    ContiguousFrom (applyOps f ops (c_create_wlsb bits width p)).window width
      (applyOps f ops (c_create_wlsb bits width p)).oldest :=
  contiguousFrom_of_windowInv width _
    (windowInv_applyOps f width ops hadds _ (windowInv_create bits width p hw))

/-! ### Witnesses: each hypothesis-bearing claim theorem applied at a
concrete input -/

/-- Witness for the Claim C1 theorem at a one-entry window. -/
theorem c_get_k_wlsb_minmax_gsearch_witness :
    usedValues wOne.window ≠ [] ∧
    (∀ x ∈ usedValues wOne.window, x ≤ 4294967295) ∧
    (∃ mn mx, mn ∈ usedValues wOne.window ∧ mx ∈ usedValues wOne.window ∧
      (∀ x ∈ usedValues wOne.window, mn ≤ x) ∧
      (∀ x ∈ usedValues wOne.window, x ≤ mx) ∧
      GSpec fTest mn 10 wOne.p wOne.bits (g fTest mn 10 wOne.p wOne.bits) ∧
      GSpec fTest mx 10 wOne.p wOne.bits (g fTest mx 10 wOne.p wOne.bits) ∧
      c_get_k_wlsb fTest wOne 10 =
        some (Nat.max (g fTest mn 10 wOne.p wOne.bits)
          (g fTest mx 10 wOne.p wOne.bits))) :=
  ⟨by decide, by decide,
    c_get_k_wlsb_minmax_gsearch fTest wOne 10 (by decide) (by decide)⟩

/-- Witness for the Claim C2 theorem: value 5 is below every interval
`[10, 10 + 2^k - 1]`, so the search saturates at `max_bits = 4`. -/
theorem c_get_k_wlsb_saturates_witness :
    (∀ x ∈ usedValues wOne.window, x ≤ 4294967295) ∧
    (10 ∈ usedValues wOne.window) ∧
    (∀ x ∈ usedValues wOne.window, 10 ≤ x) ∧
    (∀ x ∈ usedValues wOne.window, x ≤ 10) ∧
    (∀ j, j < wOne.bits → ¬ inInterval fTest 10 j wOne.p 5) ∧
    c_get_k_wlsb fTest wOne 5 = some wOne.bits :=
  ⟨by decide, by decide, by decide, by decide, by decide,
    c_get_k_wlsb_saturates fTest wOne 5 10 10 (by decide) (by decide)
      (by decide) (by decide) (by decide) (by decide) (by decide)⟩

/-- Witness for the Claim C8 theorem at a freshly created encoder. -/
theorem c_get_k_wlsb_empty_witness :
    (∀ e ∈ (c_create_wlsb 4 3 0).window, e.is_used = false) ∧
    c_get_k_wlsb fTest (c_create_wlsb 4 3 0) 7 = none :=
  ⟨by decide, c_get_k_wlsb_empty fTest (c_create_wlsb 4 3 0) 7 (by decide)⟩

/-- Witness for the Claim C9 theorem: sequence number 9 was never
inserted into `wThree`. -/
theorem c_ack_sn_wlsb_unmatched_noop_witness :
    (∀ e ∈ wThree.window, e.is_used = true → e.sn ≠ 9) ∧
    c_ack_sn_wlsb wThree 9 = wThree :=
  ⟨by decide, c_ack_sn_wlsb_unmatched_noop wThree 9 (by decide)⟩

/-- Witness for the Claim C4 theorem: acknowledging 1 in `wThree`
matches at the oldest slot, which ends up not in use. -/
theorem c_ack_sn_wlsb_matched_at_oldest_witness :
    c_ack_find wThree 1 = some wThree.oldest ∧
    (entryAt (c_ack_sn_wlsb wThree 1).window wThree.oldest).is_used = false :=
  ⟨by decide, c_ack_sn_wlsb_matched_at_oldest wThree 1 (by decide)⟩

/-- Witness for the Claim C3 theorem: acknowledging 2 in `wThree`
matches at slot 1 ≠ oldest. -/
theorem c_ack_sn_wlsb_matched_general_witness :
    c_ack_find wThree 2 = some 1 ∧
    (1 : ℕ) ≠ wThree.oldest ∧
    wThree.oldest < wThree.window_width ∧
    ((∀ j, j < wThree.window_width →
        strictlyBetween wThree.window_width wThree.oldest 1 j →
        (entryAt (c_ack_sn_wlsb wThree 2).window j).is_used = false) ∧
      entryAt (c_ack_sn_wlsb wThree 2).window 1 = entryAt wThree.window 1 ∧
      (entryAt (c_ack_sn_wlsb wThree 2).window 1).is_used = true ∧
      (c_ack_sn_wlsb wThree 2).oldest =
        (if 1 = wThree.window_width - 1 then 0 else 1)) :=
  ⟨by decide, by decide, by decide,
    c_ack_sn_wlsb_matched_general wThree 2 1 (by decide) (by decide)
      (by decide)⟩

/-- Witness for the amended Claim C5 theorem at a found match. -/
theorem c_ack_sn_wlsb_next_two_runs_witness :
    c_ack_find wThree 2 = some 1 ∧
    wThree.oldest < wThree.window_width ∧
    (c_ack_sn_wlsb wThree 2).next =
      ((c_ack_sn_wlsb wThree 2).oldest
        + runLen (c_ack_sn_wlsb wThree 2).window (c_ack_sn_wlsb wThree 2).oldest
            (wThree.window_width - (c_ack_sn_wlsb wThree 2).oldest)
        + runLen (c_ack_sn_wlsb wThree 2).window 0 (c_ack_sn_wlsb wThree 2).oldest)
        % wThree.window_width :=
  ⟨by decide, by decide,
    c_ack_sn_wlsb_next_two_runs wThree 2 1 (by decide) (by decide)⟩

/-- Witness for the amended Claim C7 theorem on two insertions into a
capacity-3 encoder. -/
theorem contiguous_of_inserts_witness :
    0 < 3 ∧
    (∀ op ∈ ([.add 1 10, .add 2 11] : List WlsbOp), op.isAdd = true) ∧
    ContiguousFrom
      (applyOps fTest [.add 1 10, .add 2 11] (c_create_wlsb 4 3 0)).window 3
      (applyOps fTest [.add 1 10, .add 2 11] (c_create_wlsb 4 3 0)).oldest :=
  ⟨by decide, by decide,
    contiguous_of_inserts fTest [.add 1 10, .add 2 11] 4 3 0 (by decide)
      (by decide)⟩

end Wlsb
